import Mathlib

/-!
Verification development for the Codat CLI core (`src/lib/api.js`,
`src/lib/output.js`, `src/lib/auth.js`, `src/lib/config.js`).

JavaScript values returned by the API are modelled by the `Json` inductive
type (null, boolean, number, string, array, object).  Machine numbers are
modelled as mathematical integers.  Strings are modelled as `List Char`.
Terminal colouring (`chalk`) is modelled as the identity on text, per the
spec's scope note that colour decoration is out of scope.
-/

namespace Codat

/-- A JavaScript/JSON value: the dynamically-typed records the CLI core
manipulates.  Object fields are kept in insertion order. -/
inductive Json where
  | null : Json
  | bool (b : Bool) : Json
  | num (n : Int) : Json
  | str (s : List Char) : Json
  | arr (elems : List Json) : Json
  | obj (fields : List (List Char × Json)) : Json

/-- Decimal digits of `n`, most significant first, with explicit fuel so the
kernel can evaluate it.  `natDigitsAux (n+1) n` is always fully computed. -/
def natDigitsAux : Nat → Nat → List Char
  | 0, _ => []
  | fuel + 1, n =>
    if n < 10 then [Nat.digitChar n]
    else natDigitsAux fuel (n / 10) ++ [Nat.digitChar (n % 10)]

/-- Decimal representation of a natural number. -/
def natDigits (n : Nat) : List Char := natDigitsAux (n + 1) n

/-- Decimal representation of an integer (JavaScript number formatting,
restricted to the integer case of the embedding). -/
def intRepr : Int → List Char
  | .ofNat n => natDigits n
  | .negSucc m => '-' :: natDigits (m + 1)

/-- JSON string escaping as performed by `JSON.stringify`: the double quote,
backslash and the named control escapes.  (The remaining control characters
below 0x20, which `JSON.stringify` writes as `\u00XX`, are carried verbatim
by this model; this simplification does not affect round-trip fidelity.) -/
def escChar (c : Char) : List Char :=
  if c = '"' then ['\\', '"']
  else if c = '\\' then ['\\', '\\']
  else if c = '\n' then ['\\', 'n']
  else if c = '\t' then ['\\', 't']
  else if c = '\r' then ['\\', 'r']
  else if c = '\x08' then ['\\', 'b']
  else if c = '\x0c' then ['\\', 'f']
  else [c]

/-- Escape a whole string body. -/
def escStr : List Char → List Char
  | [] => []
  | c :: s => escChar c ++ escStr s

mutual

/-- `JSON.stringify(v, null, 0)`: the compact, lossless serialization used by
`outputJson` when `pretty` is false. -/
def stringify : Json → List Char
  | .null => "null".data
  | .bool true => "true".data
  | .bool false => "false".data
  | .num n => intRepr n
  | .str s => '"' :: escStr s ++ ['"']
  | .arr [] => ['[', ']']
  | .arr (x :: xs) => '[' :: stringifyItems x xs ++ [']']
  | .obj [] => ['\x7b', '\x7d']
  | .obj (f :: fs) => '\x7b' :: stringifyFields f fs ++ ['\x7d']
termination_by v => sizeOf v

/-- Comma-separated serialization of the elements of a non-empty array. -/
def stringifyItems : Json → List Json → List Char
  | x, [] => stringify x
  | x, y :: xs => stringify x ++ ',' :: stringifyItems y xs
termination_by x xs => sizeOf x + sizeOf xs

/-- Comma-separated serialization of the members of a non-empty object. -/
def stringifyFields : (List Char × Json) → List (List Char × Json) → List Char
  | (k, v), [] => '"' :: escStr k ++ '"' :: ':' :: stringify v
  | (k, v), f :: fs => '"' :: escStr k ++ '"' :: ':' :: stringify v ++ ',' :: stringifyFields f fs
termination_by f fs => sizeOf f + sizeOf fs

end

/-!
A JSON parser modelling `JSON.parse` (which the spec's round-trip law invokes;
`JSON.parse` itself is a JavaScript builtin, external to the repository, so it
is modelled here from the JSON grammar).  The value parser carries explicit
fuel so all recursion is structural and the kernel can evaluate it; the fuel is
decremented on every nested parse, and `parseJson` supplies input-length fuel,
which the `jsize` bound below shows is always sufficient.
-/

/-- Inverse of `escChar` on single-character escape codes. -/
def unescChar (e : Char) : Option Char :=
  if e = '"' then some '"'
  else if e = '\\' then some '\\'
  else if e = '/' then some '/'
  else if e = 'n' then some '\n'
  else if e = 't' then some '\t'
  else if e = 'r' then some '\r'
  else if e = 'b' then some '\x08'
  else if e = 'f' then some '\x0c'
  else none

/-- Parse the body of a JSON string up to (and consuming) the closing quote. -/
def parseStringBody : List Char → Option (List Char × List Char)
  | [] => none
  | '"' :: r => some ([], r)
  | '\\' :: e :: r' =>
    match unescChar e with
    | some d =>
      match parseStringBody r' with
      | some (s, rest) => some (d :: s, rest)
      | none => none
    | none => none
  | c :: r =>
    match parseStringBody r with
    | some (s, rest) => some (c :: s, rest)
    | none => none

/-- Consume a maximal run of decimal digits, accumulating their value. -/
def parseNatAux (acc : Nat) : List Char → Nat × List Char
  | [] => (acc, [])
  | c :: r => if c.isDigit then parseNatAux (acc * 10 + (c.toNat - 48)) r else (acc, c :: r)

/-- Parse a natural-number literal (at least one leading digit required). -/
def parseNatNum : List Char → Option (Nat × List Char)
  | [] => none
  | c :: r => if c.isDigit then some (parseNatAux 0 (c :: r)) else none

mutual

/-- Fuel-indexed JSON value parser. -/
def parseVal : Nat → List Char → Option (Json × List Char)
  | 0, _ => none
  | _ + 1, [] => none
  | f + 1, c :: r =>
    if c = 'n' then
      match r with
      | 'u' :: 'l' :: 'l' :: r' => some (.null, r')
      | _ => none
    else if c = 't' then
      match r with
      | 'r' :: 'u' :: 'e' :: r' => some (.bool true, r')
      | _ => none
    else if c = 'f' then
      match r with
      | 'a' :: 'l' :: 's' :: 'e' :: r' => some (.bool false, r')
      | _ => none
    else if c = '"' then
      match parseStringBody r with
      | some (s, rest) => some (.str s, rest)
      | none => none
    else if c = '[' then
      match r with
      | [] => none
      | d :: r' =>
        if d = ']' then some (.arr [], r')
        else
          match parseItems f (d :: r') with
          | some (xs, rest) => some (.arr xs, rest)
          | none => none
    else if c = '\x7b' then
      match r with
      | [] => none
      | d :: r' =>
        if d = '\x7d' then some (.obj [], r')
        else
          match parseFields f (d :: r') with
          | some (ms, rest) => some (.obj ms, rest)
          | none => none
    else if c = '-' then
      match parseNatNum r with
      | some (n, rest) => some (.num (-(n : Int)), rest)
      | none => none
    else if c.isDigit then
      match parseNatNum (c :: r) with
      | some (n, rest) => some (.num (n : Int), rest)
      | none => none
    else none

/-- Parse the elements of a non-empty array, consuming the closing bracket. -/
def parseItems : Nat → List Char → Option (List Json × List Char)
  | 0, _ => none
  | f + 1, cs =>
    match parseVal f cs with
    | some (v, rest) =>
      match rest with
      | [] => none
      | d :: r' =>
        if d = ',' then
          match parseItems f r' with
          | some (xs, rest') => some (v :: xs, rest')
          | none => none
        else if d = ']' then some ([v], r')
        else none
    | none => none

/-- Parse the members of a non-empty object, consuming the closing brace. -/
def parseFields : Nat → List Char → Option (List (List Char × Json) × List Char)
  | 0, _ => none
  | f + 1, cs =>
    match cs with
    | '"' :: r =>
      match parseStringBody r with
      | some (k, rest) =>
        match rest with
        | ':' :: r' =>
          match parseVal f r' with
          | some (v, rest') =>
            match rest' with
            | [] => none
            | d :: r'' =>
              if d = ',' then
                match parseFields f r'' with
                | some (ms, rest'') => some ((k, v) :: ms, rest'')
                | none => none
              else if d = '\x7d' then some ([(k, v)], r'')
              else none
          | none => none
        | _ => none
      | none => none
    | _ => none

end

/-- `JSON.parse`: parse a complete JSON document (no trailing input). -/
def parseJson (cs : List Char) : Option Json :=
  match parseVal (cs.length + 1) cs with
  | some (v, []) => some v
  | _ => none

mutual

/-- Parser fuel needed for a value: one unit per nested parse step. -/
def jsize : Json → Nat
  | .arr (x :: xs) => 1 + jsizeItems x xs
  | .obj (f :: fs) => 1 + jsizeFields f fs
  | _ => 1
termination_by v => sizeOf v

/-- Parser fuel needed for the elements of a non-empty array. -/
def jsizeItems : Json → List Json → Nat
  | x, [] => 1 + jsize x
  | x, y :: xs => 1 + jsize x + jsizeItems y xs
termination_by x xs => sizeOf x + sizeOf xs

/-- Parser fuel needed for the members of a non-empty object. -/
def jsizeFields : (List Char × Json) → List (List Char × Json) → Nat
  | (_, v), [] => 1 + jsize v
  | (_, v), f :: fs => 1 + jsize v + jsizeFields f fs
termination_by f fs => sizeOf f + sizeOf fs

end

/-!
Pagination traversal: `getAllPages` from `src/lib/api.js`.

One loop iteration of the source performs one `client.get` for page number
`page`, appends `data.results || []`, computes `hasMore` from
`data._links?.next?.href != null`, and increments `page`; the loop guard is
`hasMore && page <= maxPages`.  A page response is modelled by `Page` (records
plus the optional `_links.next.href` continuation marker); a fetch is a
function from the page number to either a page or an error (`handleApiError`
plus `process.exit(1)` in the source is modelled as returning the error: no
records are returned in that case, matching the source, which never reaches
its `return allResults`).  The record and error types are abstract parameters.

`getAllPagesAux` additionally returns two ghost observations used only by the
theorems: the number of fetch calls performed and the list of successfully
fetched pages in fetch order.  The first component is exactly the source's
behavior.
-/

/-- One page response: `data.results || []` and `data._links?.next?.href`. -/
structure Page (α : Type) where
  results : List α
  nextHref : Option (List Char)

/-- The loop of `getAllPages`, with fuel (the source's `while` terminates
because `page` increases to `maxPages`; the run below supplies `maxPages + 1`
fuel, which the guard `page ≤ maxPages` never exhausts). -/
def getAllPagesAux {α ε : Type} (fetch : Nat → Except ε (Page α)) (maxPages : Nat) :
    Nat → Nat → List α → Except ε (List α) × Nat × List (Page α)
  | 0, _, acc => (.ok acc, 0, [])
  | fuel + 1, page, acc =>
    if page ≤ maxPages then
      match fetch page with
      | .error e => (.error e, 1, [])
      | .ok data =>
        if data.nextHref.isSome then
          let r := getAllPagesAux fetch maxPages fuel (page + 1) (acc ++ data.results)
          (r.1, r.2.1 + 1, data :: r.2.2)
        else (.ok (acc ++ data.results), 1, [data])
    else (.ok acc, 0, [])

/-- The source's default `maxPages = 10`. -/
def defaultMaxPages : Nat := 10

/-- A full run of `getAllPages`: result, fetch-call count, fetched pages. -/
def getAllPagesRun {α ε : Type} (fetch : Nat → Except ε (Page α)) (maxPages : Nat) :
    Except ε (List α) × Nat × List (Page α) :=
  getAllPagesAux fetch maxPages (maxPages + 1) 1 []

/-- `getAllPages(endpoint, params, {maxPages})`: the combined record list, or
the first error. -/
def getAllPages {α ε : Type} (fetch : Nat → Except ε (Page α)) (maxPages : Nat) :
    Except ε (List α) :=
  (getAllPagesRun fetch maxPages).1

/-- Number of page-fetch (read) calls a run performs. -/
def getAllPagesCallCount {α ε : Type} (fetch : Nat → Except ε (Page α)) (maxPages : Nat) : Nat :=
  (getAllPagesRun fetch maxPages).2.1

/-- The successfully fetched pages, in fetch order. -/
def getAllPagesFetched {α ε : Type} (fetch : Nat → Except ε (Page α)) (maxPages : Nat) :
    List (Page α) :=
  (getAllPagesRun fetch maxPages).2.2

/-!
Query builder: `buildQuery` from `src/lib/api.js`.

The source takes a plain key→value object, skips entries whose value is
`undefined` or `null`, renders string values as `key="value"` and other
(numeric) values as `key=value`, and joins the conditions with `&&`.
`Object.entries` order is insertion order for the non-integer keys the CLI
uses, so the object is modelled as an ordered association list; `undefined`
and `null` are identified.  The early return of `''` for an empty object
coincides with joining zero conditions.
-/

/-- A filter value: `null`/`undefined`, a string, or a number. -/
inductive FilterValue where
  | null : FilterValue
  | str (s : List Char) : FilterValue
  | num (n : Int) : FilterValue

/-- Render one filter entry, or skip it when the value is null/undefined. -/
def renderFilter : List Char × FilterValue → Option (List Char)
  | (_, .null) => none
  | (k, .str s) => some (k ++ '=' :: '"' :: (s ++ ['"']))
  | (k, .num n) => some (k ++ '=' :: intRepr n)

/-- `buildQuery(filters)`. -/
def buildQuery (filters : List (List Char × FilterValue)) : List Char :=
  List.intercalate ['&', '&'] (filters.filterMap renderFilter)

/-- Number of (possibly overlapping) occurrences of the substring `&&`. -/
def ampAmpCount : List Char → Nat
  | [] => 0
  | a :: rest => (if a = '&' ∧ rest.head? = some '&' then 1 else 0) + ampAmpCount rest

/-!
Output renderer: `src/lib/output.js`.

Console output is modelled as a list of printed lines (`console.log` /
`console.error` calls, in order).  A line is either plain text or the grid the
source hands to the external `table` library (that library draws borders and
pads cells; its input — header row plus data rows of formatted cell text — is
what the source computes, so the model keeps it as structured data).  `chalk`
colouring is the identity on text.
-/

/-- One printed console line. -/
inductive OutLine where
  | text (s : List Char) : OutLine
  | grid (rows : List (List (List Char))) : OutLine
deriving DecidableEq

/-- A column spec: a plain string key, or `{key, header, formatter}`. -/
inductive Column where
  | plain (key : List Char) : Column
  | spec (key : List Char) (header : List Char)
      (formatter : Option (Option Json → Json → List Char)) : Column

/-- `typeof col === 'string' ? col : col.header`. -/
def columnHeader : Column → List Char
  | .plain k => k
  | .spec _ h _ => h

/-- `typeof col === 'string' ? col : col.key`. -/
def columnKey : Column → List Char
  | .plain k => k
  | .spec k _ _ => k

/-- `typeof col === 'object' ? col.formatter : null`. -/
def columnFormatter : Column → Option (Option Json → Json → List Char)
  | .plain _ => none
  | .spec _ _ fm => fm

/-- `String.prototype.split('.')` (never returns an empty list). -/
def splitOnDotAux : List Char → List Char → List (List Char)
  | cur, [] => [cur.reverse]
  | cur, c :: rest =>
    if c = '.' then cur.reverse :: splitOnDotAux [] rest
    else splitOnDotAux (c :: cur) rest

/-- Split a dotted path into its keys. -/
def splitOnDot (s : List Char) : List (List Char) := splitOnDotAux [] s

/-- First-match association-list lookup (JS object property access; object
keys are unique in JS, so first match is the match). -/
def lookupField : List (List Char × Json) → List Char → Option Json
  | [], _ => none
  | (k, v) :: fs, key => if k = key then some v else lookupField fs key

/-- Whether a property key is a canonical array index (`arr["2"]` hits the
element, `arr["02"]` does not). -/
def arrayIndex (key : List Char) : Option Nat :=
  if (parseNatAux 0 key).2 = [] ∧ key ≠ [] ∧ natDigits (parseNatAux 0 key).1 = key then
    some (parseNatAux 0 key).1
  else none

/-- One step `current?.[key]` of the dotted-path reducer.  (String
character-indexing and the array `length` property are not modelled; the
spec's column paths never use them.) -/
def jsIndexStep : Option Json → List Char → Option Json
  | none, _ => none
  | some j, key =>
    match j with
    | .obj fs => lookupField fs key
    | .arr xs =>
      match arrayIndex key with
      | some i => xs.get? i
      | none => none
    | _ => none

/-- `getNestedValue(obj, path)`: resolve a dotted path; `none` = `undefined`. -/
def getNestedValue (obj : Json) (path : List Char) : Option Json :=
  (splitOnDot path).foldl jsIndexStep (some obj)

/-- JS truthiness of a value (`!data` is `jsFalsy`). -/
def jsFalsy : Json → Bool
  | .null => true
  | .bool b => !b
  | .num n => n = 0
  | .str s => s.isEmpty
  | _ => false

/-- Truthiness of a possibly-absent value (`undefined` is falsy). -/
def jsTruthy : Option Json → Bool
  | none => false
  | some v => !(jsFalsy v)

mutual

/-- JS string coercion `String(v)` as used by template literals and
`console.error` argument joining. -/
def jsCoerce : Json → List Char
  | .null => "null".data
  | .bool true => "true".data
  | .bool false => "false".data
  | .num n => intRepr n
  | .str s => s
  | .arr [] => []
  | .arr (x :: xs) => jsCoerceItems x xs
  | .obj _ => "[object Object]".data
termination_by v => sizeOf v

/-- `Array.prototype.join(',')` under string coercion (null elements render
as the empty string). -/
def jsCoerceItems : Json → List Json → List Char
  | x, [] => (match x with | .null => [] | v => jsCoerce v)
  | x, y :: xs => (match x with | .null => [] | v => jsCoerce v) ++ ',' :: jsCoerceItems y xs
termination_by x xs => sizeOf x + sizeOf xs

end

/-- Coercion of a possibly-absent value (`undefined` renders as such). -/
def jsCoerceOpt : Option Json → List Char
  | none => "undefined".data
  | some v => jsCoerce v

/-- `Array.isArray(data) ? data : [data]`. -/
def asItems : Json → List Json
  | .arr xs => xs
  | j => [j]

/-- `value === null || value === undefined || typeof value !== 'object' ||
Array.isArray(value)`: which values keep their key as an inferred column. -/
def keepColumn : Json → Bool
  | .obj _ => false
  | _ => true

/-- `inferColumns(obj)`: top-level keys whose values are not plain nested
objects; non-objects infer the single column `value`. -/
def inferColumns : Json → List (List Char)
  | .obj fs => fs.filterMap (fun kv => if keepColumn kv.2 then some kv.1 else none)
  | .arr xs =>
    (xs.enum).filterMap (fun iv => if keepColumn iv.2 then some (natDigits iv.1) else none)
  | _ => ["value".data]

/-- `formatValue(value)`: display formatting for one table cell. -/
def formatValue : Option Json → List Char
  | none => "—".data
  | some .null => "—".data
  | some (.bool true) => "✓".data
  | some (.bool false) => "✗".data
  | some (.arr xs) =>
    if xs.length > 0 then '[' :: natDigits xs.length ++ " items]".data else "[]".data
  | some (.obj _) => "[object]".data
  | some (.str s) => if s.length > 50 then s.take 47 ++ "...".data else s
  | some (.num n) => intRepr n

/-- One table cell: resolve the column's dotted path, then apply its
formatter, or `formatValue`. -/
def renderCell (item : Json) (col : Column) : List Char :=
  match columnFormatter col with
  | some fm => fm (getNestedValue item (columnKey col)) item
  | none => formatValue (getNestedValue item (columnKey col))

/-- The `tableData` array handed to the `table` library: header row followed
by one row per record. -/
def tableData (cols : List Column) (items : List Json) : List (List (List Char)) :=
  (cols.map columnHeader) :: items.map (fun item => cols.map (renderCell item))

/-- `outputTable(data, {columns, title})`. -/
def outputTable (data : Json) (columns : Option (List Column)) (title : Option (List Char)) :
    List OutLine :=
  if jsFalsy data then [.text "No data to display".data]
  else
    match asItems data with
    | [] => [.text "No results found".data]
    | item0 :: more =>
      let cols := match columns with
        | some cs => cs
        | none => (inferColumns item0).map Column.plain
      (match title with
       | some t => [OutLine.text t]
       | none => []) ++
      [OutLine.grid (tableData cols (item0 :: more))] ++
      [OutLine.text (natDigits (item0 :: more).length ++ " result".data ++
        (if (item0 :: more).length ≠ 1 then ['s'] else []))]

/-- `outputCompact(data, {fields})`: one line per item; no empty-input
notice — an empty collection prints nothing. -/
def outputCompact (data : Json) (fields : Option (List (List Char))) : List OutLine :=
  (asItems data).map (fun item =>
    match fields with
    | some fl =>
      .text (List.intercalate [' ']
        (fl.map (fun fd => fd ++ '=' :: jsCoerceOpt (getNestedValue item fd))))
    | none => .text (stringify item))

/-- Two spaces of indentation per nesting level (`JSON.stringify(_, null, 2)`). -/
def indentSp (level : Nat) : List Char := List.replicate (2 * level) ' '

mutual

/-- `JSON.stringify(v, null, 2)` at a given nesting level. -/
def stringifyP : Nat → Json → List Char
  | _, .null => "null".data
  | _, .bool true => "true".data
  | _, .bool false => "false".data
  | _, .num n => intRepr n
  | _, .str s => '"' :: escStr s ++ ['"']
  | _, .arr [] => ['[', ']']
  | lvl, .arr (x :: xs) =>
    '[' :: '\n' :: indentSp (lvl + 1) ++ stringifyPItems (lvl + 1) x xs ++
      '\n' :: indentSp lvl ++ [']']
  | _, .obj [] => ['\x7b', '\x7d']
  | lvl, .obj (f :: fs) =>
    '\x7b' :: '\n' :: indentSp (lvl + 1) ++ stringifyPFields (lvl + 1) f fs ++
      '\n' :: indentSp lvl ++ ['\x7d']
termination_by _ v => sizeOf v

/-- Pretty-printed array elements. -/
def stringifyPItems : Nat → Json → List Json → List Char
  | lvl, x, [] => stringifyP lvl x
  | lvl, x, y :: xs =>
    stringifyP lvl x ++ ',' :: '\n' :: indentSp lvl ++ stringifyPItems lvl y xs
termination_by _ x xs => sizeOf x + sizeOf xs

/-- Pretty-printed object members. -/
def stringifyPFields : Nat → (List Char × Json) → List (List Char × Json) → List Char
  | lvl, (k, v), [] => '"' :: escStr k ++ '"' :: ':' :: ' ' :: stringifyP lvl v
  | lvl, (k, v), f :: fs =>
    '"' :: escStr k ++ '"' :: ':' :: ' ' :: stringifyP lvl v ++
      ',' :: '\n' :: indentSp lvl ++ stringifyPFields lvl f fs
termination_by _ f fs => sizeOf f + sizeOf fs

end

/-- `JSON.stringify(v, null, 2)`. -/
def stringifyPretty (v : Json) : List Char := stringifyP 0 v

/-- `outputJson(data, {pretty})`; `pretty` defaults to `true`. -/
def outputJson (data : Json) (pretty : Option Bool) : List OutLine :=
  [.text (if pretty.getD true then stringifyPretty data else stringify data)]

/-- `formatOutput(data, options)`: dispatch on `options.format ||
getOutputFormat()` (an absent or empty format string falls back to the
configured default, passed here as `configFormat`). -/
def formatOutput (data : Json) (format : Option (List Char)) (configFormat : List Char)
    (columns : Option (List Column)) (title : Option (List Char))
    (fields : Option (List (List Char))) (pretty : Option Bool) : List OutLine :=
  let fmt := match format with
    | some fs => if fs.isEmpty then configFormat else fs
    | none => configFormat
  if fmt = "json".data then outputJson data pretty
  else if fmt = "compact".data then outputCompact data fields
  else outputTable data columns title

/-!
Error handling: `handleApiError` from `src/lib/api.js`.

An axios error either carries a response (status + parsed body), was sent but
received no response, or failed during setup.  The handler prints lines and
then calls `process.exit(1)`; the model is the list of printed lines.
-/

/-- The shape of an axios error, as far as `handleApiError` inspects it. -/
inductive AxiosError where
  | response (status : Nat) (data : Json) : AxiosError
  | request : AxiosError
  | setup (message : List Char) : AxiosError

/-- Property access `data.key` (undefined on non-objects). -/
def getField (data : Json) (key : List Char) : Option Json :=
  match data with
  | .obj fs => lookupField fs key
  | _ => none

/-- `data.message || data.error || fallback`, coerced for printing. -/
def msgOr (data : Json) (fallback : List Char) : List Char :=
  if jsTruthy (getField data "message".data) then jsCoerceOpt (getField data "message".data)
  else if jsTruthy (getField data "error".data) then jsCoerceOpt (getField data "error".data)
  else fallback

/-- The trailing `if (data.details || data.validation)` block: printed for
every response status. -/
def detailBlock (data : Json) : List OutLine :=
  let chosen := if jsTruthy (getField data "details".data) then getField data "details".data
    else getField data "validation".data
  if jsTruthy chosen then
    [.text ("Details: ".data ++ stringifyPretty (chosen.getD .null))]
  else []

/-- The per-status `switch` of `handleApiError`. -/
def statusLines (status : Nat) (data : Json) : List OutLine :=
  if status = 400 then
    [.text ("Bad Request: ".data ++ msgOr data "Invalid request parameters".data)]
  else if status = 401 then
    [.text "Unauthorized: Invalid API key or authentication failed".data,
     .text "Hint: Check your API key with codat auth status".data]
  else if status = 403 then
    [.text "Forbidden: You do not have permission to access this resource".data]
  else if status = 404 then
    [.text "Not Found: Resource not found".data]
  else if status = 429 then
    [.text "Rate Limited: Too many requests. Please try again later.".data] ++
    (if jsTruthy (getField data "Retry-After".data) then
      [.text ("Retry after: ".data ++ jsCoerceOpt (getField data "Retry-After".data) ++
        " seconds".data)]
    else [])
  else if status = 500 ∨ status = 502 ∨ status = 503 then
    [.text "Server Error: Codat API is experiencing issues".data,
     .text "Please try again later".data]
  else
    [.text ("HTTP ".data ++ natDigits status ++ ": ".data ++ msgOr data "Unknown error".data)]

/-- `handleApiError(error)`: everything printed before `process.exit(1)`. -/
def handleApiError : AxiosError → List OutLine
  | .response status data => statusLines status data ++ detailBlock data
  | .request =>
    [.text "Network Error: No response from server".data,
     .text "Check your internet connection and try again".data]
  | .setup message => [.text ("Error: ".data ++ message)]

/-!
Concrete page providers used by the end-to-end scenarios.
-/

/-- Scenario C provider: pages 1–3 carry two records each and a continuation
marker; page 4 is empty with no marker. -/
def scenarioFetch : Nat → Except Unit (Page Nat) := fun p =>
  if p ≤ 3 then .ok ⟨[2 * p - 1, 2 * p], some ['n']⟩ else .ok ⟨[], none⟩

/-- A provider whose first page is empty but carries a continuation marker;
the single record lives on page 2. -/
def emptyPageFetch : Nat → Except Unit (Page Nat) := fun p =>
  if p = 1 then .ok ⟨[], some ['h']⟩ else .ok ⟨[42], none⟩

/-- A provider that succeeds on page 1 (with marker) and fails on page 2. -/
def failPageFetch : Nat → Except Nat (Page Nat) := fun p =>
  if p = 1 then .ok ⟨[7, 8], some ['h']⟩ else .error 99

/-- A two-page provider used to exercise the ordering law. -/
def twoPageFetch : Nat → Except Unit (Page Nat) := fun p =>
  if p = 1 then .ok ⟨[10, 20], some ['h']⟩ else .ok ⟨[30], none⟩

/-!
Lemmas about decimal digit strings.
-/

theorem natDigitsAux_congr : ∀ n f, n < f → natDigitsAux f n = natDigits n := by
  intro n
  induction n using Nat.strong_induction_on with
  | _ n ih =>
    intro f hf
    match f, hf with
    | g + 1, _ =>
      by_cases h10 : n < 10
      · simp [natDigitsAux, natDigits, h10]
      · have hdiv : n / 10 < n := Nat.div_lt_self (by omega) (by omega)
        have h1 : natDigitsAux g (n / 10) = natDigits (n / 10) := ih (n / 10) hdiv g (by omega)
        have h2 : natDigitsAux n (n / 10) = natDigits (n / 10) := ih (n / 10) hdiv n (by omega)
        simp [natDigitsAux, natDigits, h10, h1, h2]

theorem natDigits_lt10 {n : Nat} (h : n < 10) : natDigits n = [Nat.digitChar n] := by
  simp [natDigits, natDigitsAux, h]

theorem natDigits_ge10 {n : Nat} (h : 10 ≤ n) :
    natDigits n = natDigits (n / 10) ++ [Nat.digitChar (n % 10)] := by
  have h10 : ¬ n < 10 := by omega
  have hdiv : n / 10 < n := Nat.div_lt_self (by omega) (by omega)
  calc natDigits n = natDigitsAux (n + 1) n := rfl
    _ = natDigitsAux n (n / 10) ++ [Nat.digitChar (n % 10)] := by
        simp [natDigitsAux, h10]
    _ = natDigits (n / 10) ++ [Nat.digitChar (n % 10)] := by
        rw [natDigitsAux_congr (n / 10) n (by omega)]

theorem digitChar_isDigit {n : Nat} (h : n < 10) : (Nat.digitChar n).isDigit = true := by
  interval_cases n <;> decide

theorem digitChar_toNat {n : Nat} (h : n < 10) : (Nat.digitChar n).toNat = 48 + n := by
  interval_cases n <;> decide

theorem natDigits_digits : ∀ n : Nat, ∀ c ∈ natDigits n, c.isDigit = true := by
  intro n
  induction n using Nat.strong_induction_on with
  | _ n ih =>
    by_cases h10 : n < 10
    · rw [natDigits_lt10 h10]
      intro c hc
      simp only [List.mem_singleton] at hc
      exact hc ▸ digitChar_isDigit h10
    · rw [natDigits_ge10 (by omega)]
      intro c hc
      rcases List.mem_append.mp hc with hm | hm
      · exact ih (n / 10) (Nat.div_lt_self (by omega) (by omega)) c hm
      · simp only [List.mem_singleton] at hm
        exact hm ▸ digitChar_isDigit (Nat.mod_lt n (by omega))

theorem natDigits_ne_nil (n : Nat) : natDigits n ≠ [] := by
  by_cases h10 : n < 10
  · rw [natDigits_lt10 h10]; simp
  · rw [natDigits_ge10 (by omega)]; simp

theorem natDigits_cons (n : Nat) :
    ∃ c t, natDigits n = c :: t ∧ c.isDigit = true := by
  cases h : natDigits n with
  | nil => exact absurd h (natDigits_ne_nil n)
  | cons c t =>
    exact ⟨c, t, rfl, natDigits_digits n c (by rw [h]; exact List.mem_cons_self c t)⟩

theorem intRepr_chars (i : Int) : ∀ c ∈ intRepr i, c = '-' ∨ c.isDigit = true := by
  cases i with
  | ofNat m =>
    intro c hc
    exact Or.inr (natDigits_digits m c hc)
  | negSucc m =>
    intro c hc
    simp only [intRepr, List.mem_cons] at hc
    rcases hc with h | h
    · exact Or.inl h
    · exact Or.inr (natDigits_digits (m + 1) c h)

theorem parseNatAux_digits :
    ∀ (ds : List Char), (∀ c ∈ ds, c.isDigit = true) → ∀ (acc : Nat) (rest : List Char),
      parseNatAux acc (ds ++ rest) =
        parseNatAux (ds.foldl (fun a c => a * 10 + (c.toNat - 48)) acc) rest := by
  intro ds
  induction ds with
  | nil => intro _ acc rest; simp
  | cons c ds ih =>
    intro h acc rest
    have hc : c.isDigit = true := h c (List.mem_cons_self c ds)
    simp only [List.cons_append, parseNatAux, hc, if_true, List.foldl_cons]
    exact ih (fun d hd => h d (List.mem_cons_of_mem c hd)) _ rest

theorem parseNatAux_stop (acc : Nat) (rest : List Char)
    (h : ∀ d t, rest = d :: t → d.isDigit = false) :
    parseNatAux acc rest = (acc, rest) := by
  cases rest with
  | nil => rfl
  | cons d t => simp [parseNatAux, h d t rfl]

theorem foldl_natDigits :
    ∀ n acc : Nat, (natDigits n).foldl (fun a c => a * 10 + (c.toNat - 48)) acc =
      acc * 10 ^ (natDigits n).length + n := by
  intro n
  induction n using Nat.strong_induction_on with
  | _ n ih =>
    intro acc
    by_cases h10 : n < 10
    · rw [natDigits_lt10 h10]
      simp [digitChar_toNat h10]
    · rw [natDigits_ge10 (by omega)]
      rw [List.foldl_append, ih (n / 10) (Nat.div_lt_self (by omega) (by omega)) acc]
      simp only [List.foldl_cons, List.foldl_nil, List.length_append, List.length_singleton]
      rw [digitChar_toNat (Nat.mod_lt n (by omega))]
      rw [pow_succ]
      have hmod : 48 + n % 10 - 48 = n % 10 := by omega
      rw [hmod]
      have : (acc * 10 ^ (natDigits (n / 10)).length + n / 10) * 10 =
          acc * (10 ^ (natDigits (n / 10)).length * 10) + (n / 10) * 10 := by ring
      rw [this]
      omega

theorem parseNatNum_natDigits (n : Nat) (rest : List Char)
    (h : ∀ d t, rest = d :: t → d.isDigit = false) :
    parseNatNum (natDigits n ++ rest) = some (n, rest) := by
  obtain ⟨c, t, hct, hd⟩ := natDigits_cons n
  rw [hct, List.cons_append]
  simp only [parseNatNum, hd, if_true]
  rw [← List.cons_append, ← hct]
  rw [parseNatAux_digits (natDigits n) (natDigits_digits n) 0 rest]
  rw [parseNatAux_stop _ rest h, foldl_natDigits]
  simp

/-!
Round trip of string escaping, and head shapes of serialized values.
-/

theorem parseStringBody_escStr :
    ∀ (s rest : List Char), parseStringBody (escStr s ++ '"' :: rest) = some (s, rest) := by
  intro s
  induction s with
  | nil =>
    intro rest
    simp [escStr, parseStringBody]
  | cons c s ih =>
    intro rest
    have hstep : escStr (c :: s) = escChar c ++ escStr s := rfl
    rw [hstep, List.append_assoc]
    by_cases h1 : c = '"'
    · subst h1
      simp [escChar, parseStringBody, unescChar, ih rest]
    by_cases h2 : c = '\\'
    · subst h2
      simp [escChar, parseStringBody, unescChar, ih rest]
    by_cases h3 : c = '\n'
    · subst h3
      simp [escChar, parseStringBody, unescChar, ih rest]
    by_cases h4 : c = '\t'
    · subst h4
      simp [escChar, parseStringBody, unescChar, ih rest]
    by_cases h5 : c = '\r'
    · subst h5
      simp [escChar, parseStringBody, unescChar, ih rest]
    by_cases h6 : c = '\x08'
    · subst h6
      simp [escChar, parseStringBody, unescChar, ih rest]
    by_cases h7 : c = '\x0c'
    · subst h7
      simp [escChar, parseStringBody, unescChar, ih rest]
    simp [escChar, h1, h2, h3, h4, h5, h6, h7, parseStringBody, ih rest]

theorem isDigit_ne_of {c d : Char} (h : c.isDigit = true) (hd : d.isDigit = false) :
    c ≠ d := by
  intro he
  rw [he, hd] at h
  exact Bool.false_ne_true h

theorem stringify_shape (v : Json) :
    ∃ c t, stringify v = c :: t ∧ c ≠ ']' ∧ c ≠ '\x7d' := by
  cases v with
  | null => exact ⟨'n', ['u', 'l', 'l'], by simp [stringify], by decide, by decide⟩
  | bool b =>
    cases b with
    | true => exact ⟨'t', ['r', 'u', 'e'], by simp [stringify], by decide, by decide⟩
    | false => exact ⟨'f', ['a', 'l', 's', 'e'], by simp [stringify], by decide, by decide⟩
  | num i =>
    cases i with
    | ofNat m =>
      obtain ⟨c, t, hct, hd⟩ := natDigits_cons m
      exact ⟨c, t, by simp [stringify, intRepr, hct],
        isDigit_ne_of hd rfl, isDigit_ne_of hd rfl⟩
    | negSucc m =>
      exact ⟨'-', natDigits (m + 1), by simp [stringify, intRepr], by decide, by decide⟩
  | str s => exact ⟨'"', escStr s ++ ['"'], by simp [stringify], by decide, by decide⟩
  | arr xs =>
    cases xs with
    | nil => exact ⟨'[', [']'], by simp [stringify], by decide, by decide⟩
    | cons x xs =>
      exact ⟨'[', stringifyItems x xs ++ [']'], by simp [stringify], by decide, by decide⟩
  | obj fs =>
    cases fs with
    | nil => exact ⟨'\x7b', ['\x7d'], by simp [stringify], by decide, by decide⟩
    | cons f fs =>
      exact ⟨'\x7b', stringifyFields f fs ++ ['\x7d'], by simp [stringify], by decide, by decide⟩

theorem stringifyItems_shape (x : Json) (xs : List Json) :
    ∃ c t, stringifyItems x xs = c :: t ∧ c ≠ ']' ∧ c ≠ '\x7d' := by
  obtain ⟨c, t, hct, h1, h2⟩ := stringify_shape x
  cases xs with
  | nil => exact ⟨c, t, by simp [stringifyItems, hct], h1, h2⟩
  | cons y ys =>
    exact ⟨c, t ++ ',' :: stringifyItems y ys, by simp [stringifyItems, hct], h1, h2⟩

theorem stringifyFields_shape (kv : List Char × Json) (fs : List (List Char × Json)) :
    ∃ t, stringifyFields kv fs = '"' :: t := by
  obtain ⟨k, v⟩ := kv
  cases fs with
  | nil => exact ⟨escStr k ++ '"' :: ':' :: stringify v, by simp [stringifyFields]⟩
  | cons g gs =>
    exact ⟨escStr k ++ '"' :: ':' :: stringify v ++ ',' :: stringifyFields g gs,
      by simp [stringifyFields]⟩

theorem jsize_pos (v : Json) : 1 ≤ jsize v := by
  cases v with
  | null => simp [jsize]
  | bool b => simp [jsize]
  | num n => simp [jsize]
  | str s => simp [jsize]
  | arr xs => cases xs <;> simp [jsize]
  | obj fs => cases fs <;> simp [jsize]

theorem jsizeItems_pos (x : Json) (xs : List Json) : 1 ≤ jsizeItems x xs := by
  cases xs with
  | nil => simp [jsizeItems]
  | cons y ys => simp only [jsizeItems]; omega

theorem jsizeFields_pos (kv : List Char × Json) (fs : List (List Char × Json)) :
    1 ≤ jsizeFields kv fs := by
  obtain ⟨k, v⟩ := kv
  cases fs with
  | nil => simp [jsizeFields]
  | cons g gs => simp only [jsizeFields]; omega

/-!
The parser inverts the serializer, by induction on parser fuel.
-/

theorem parse_stringify :
    ∀ f : Nat,
      (∀ (v : Json) (rest : List Char), jsize v ≤ f →
        (∀ d t, rest = d :: t → d.isDigit = false) →
        parseVal f (stringify v ++ rest) = some (v, rest)) ∧
      (∀ (x : Json) (xs : List Json) (rest : List Char), jsizeItems x xs ≤ f →
        parseItems f (stringifyItems x xs ++ ']' :: rest) = some (x :: xs, rest)) ∧
      (∀ (kv : List Char × Json) (fs : List (List Char × Json)) (rest : List Char),
        jsizeFields kv fs ≤ f →
        parseFields f (stringifyFields kv fs ++ '\x7d' :: rest) = some (kv :: fs, rest)) := by
  intro f
  induction f with
  | zero =>
    refine ⟨?_, ?_, ?_⟩
    · intro v rest hsz _
      exact absurd hsz (by have := jsize_pos v; omega)
    · intro x xs rest hsz
      exact absurd hsz (by have := jsizeItems_pos x xs; omega)
    · intro kv fs rest hsz
      exact absurd hsz (by have := jsizeFields_pos kv fs; omega)
  | succ f ih =>
    obtain ⟨ihval, ihitems, ihfields⟩ := ih
    refine ⟨?_, ?_, ?_⟩
    · -- values
      intro v rest hsz hrest
      cases v with
      | null =>
        have hs : stringify Json.null ++ rest = 'n' :: 'u' :: 'l' :: 'l' :: rest := by
          simp [stringify]
        rw [hs]
        simp [parseVal]
      | bool b =>
        cases b with
        | true =>
          have hs : stringify (Json.bool true) ++ rest = 't' :: 'r' :: 'u' :: 'e' :: rest := by
            simp [stringify]
          rw [hs]
          simp [parseVal]
        | false =>
          have hs : stringify (Json.bool false) ++ rest =
              'f' :: 'a' :: 'l' :: 's' :: 'e' :: rest := by
            simp [stringify]
          rw [hs]
          simp [parseVal]
      | num i =>
        cases i with
        | ofNat m =>
          obtain ⟨c, t, hct, hd⟩ := natDigits_cons m
          have hn : c ≠ 'n' := isDigit_ne_of hd rfl
          have ht : c ≠ 't' := isDigit_ne_of hd rfl
          have hf : c ≠ 'f' := isDigit_ne_of hd rfl
          have hq : c ≠ '"' := isDigit_ne_of hd rfl
          have hlb : c ≠ '[' := isDigit_ne_of hd rfl
          have hlc : c ≠ '\x7b' := isDigit_ne_of hd rfl
          have hmi : c ≠ '-' := isDigit_ne_of hd rfl
          have hpn : parseNatNum (c :: (t ++ rest)) = some (m, rest) := by
            rw [← List.cons_append, ← hct]
            exact parseNatNum_natDigits m rest hrest
          have hs : stringify (Json.num (Int.ofNat m)) ++ rest = c :: (t ++ rest) := by
            simp [stringify, intRepr, hct]
          rw [hs]
          simp [parseVal, hn, ht, hf, hq, hlb, hlc, hmi, hd, hpn]
        | negSucc m =>
          have hpn := parseNatNum_natDigits (m + 1) rest hrest
          have hs : stringify (Json.num (Int.negSucc m)) ++ rest =
              '-' :: (natDigits (m + 1) ++ rest) := by
            simp [stringify, intRepr]
          rw [hs]
          simp [parseVal, hpn]
          simp [Int.negSucc_eq]
      | str s =>
        have hps := parseStringBody_escStr s rest
        have hs : stringify (Json.str s) ++ rest = '"' :: (escStr s ++ '"' :: rest) := by
          simp [stringify]
        rw [hs]
        simp [parseVal, hps]
      | arr xs =>
        cases xs with
        | nil =>
          have hs : stringify (Json.arr []) ++ rest = '[' :: ']' :: rest := by
            simp [stringify]
          rw [hs]
          simp [parseVal]
        | cons x xs =>
          obtain ⟨c, t, hct, hc1, hc2⟩ := stringifyItems_shape x xs
          have hbound : jsizeItems x xs ≤ f := by
            simp only [jsize] at hsz; omega
          have hit : parseItems f (c :: (t ++ ']' :: rest)) = some (x :: xs, rest) := by
            rw [← List.cons_append, ← hct]
            exact ihitems x xs rest hbound
          have hs : stringify (Json.arr (x :: xs)) ++ rest = '[' :: c :: (t ++ ']' :: rest) := by
            simp [stringify, hct]
          rw [hs]
          simp [parseVal, hc1, hit]
      | obj fs =>
        cases fs with
        | nil =>
          have hs : stringify (Json.obj []) ++ rest = '\x7b' :: '\x7d' :: rest := by
            simp [stringify]
          rw [hs]
          simp [parseVal]
        | cons g gs =>
          obtain ⟨t, hct⟩ := stringifyFields_shape g gs
          have hbound : jsizeFields g gs ≤ f := by
            simp only [jsize] at hsz; omega
          have hfl : parseFields f ('"' :: (t ++ '\x7d' :: rest)) = some (g :: gs, rest) := by
            rw [← List.cons_append, ← hct]
            exact ihfields g gs rest hbound
          have hs : stringify (Json.obj (g :: gs)) ++ rest =
              '\x7b' :: '"' :: (t ++ '\x7d' :: rest) := by
            simp [stringify, hct]
          rw [hs]
          simp [parseVal, hfl]
    · -- array items
      intro x xs rest hsz
      cases xs with
      | nil =>
        have hbound : jsize x ≤ f := by
          simp only [jsizeItems] at hsz; omega
        have hval : parseVal f (stringify x ++ ']' :: rest) = some (x, ']' :: rest) :=
          ihval x (']' :: rest) hbound (by intro d t h; cases h; decide)
        have hs : stringifyItems x [] ++ ']' :: rest = stringify x ++ ']' :: rest := by
          simp [stringifyItems]
        rw [hs]
        simp [parseItems, hval]
      | cons y ys =>
        have hx := jsize_pos x
        have hys := jsizeItems_pos y ys
        have hbx : jsize x ≤ f := by
          simp only [jsizeItems] at hsz; omega
        have hby : jsizeItems y ys ≤ f := by
          simp only [jsizeItems] at hsz; omega
        have hval : parseVal f (stringify x ++ ',' :: (stringifyItems y ys ++ ']' :: rest)) =
            some (x, ',' :: (stringifyItems y ys ++ ']' :: rest)) :=
          ihval x _ hbx (by intro d t h; cases h; decide)
        have hit := ihitems y ys rest hby
        have hs : stringifyItems x (y :: ys) ++ ']' :: rest =
            stringify x ++ ',' :: (stringifyItems y ys ++ ']' :: rest) := by
          simp [stringifyItems]
        rw [hs]
        simp [parseItems, hval, hit]
    · -- object fields
      intro kv fs rest hsz
      obtain ⟨k, v⟩ := kv
      cases fs with
      | nil =>
        have hbound : jsize v ≤ f := by
          simp only [jsizeFields] at hsz; omega
        have hval : parseVal f (stringify v ++ '\x7d' :: rest) = some (v, '\x7d' :: rest) :=
          ihval v ('\x7d' :: rest) hbound (by intro d t h; cases h; decide)
        have hps := parseStringBody_escStr k (':' :: (stringify v ++ '\x7d' :: rest))
        have hs : stringifyFields (k, v) [] ++ '\x7d' :: rest =
            '"' :: (escStr k ++ '"' :: (':' :: (stringify v ++ '\x7d' :: rest))) := by
          simp [stringifyFields]
        rw [hs]
        simp [parseFields, hps, hval]
      | cons g gs =>
        have hv := jsize_pos v
        have hgs := jsizeFields_pos g gs
        have hbv : jsize v ≤ f := by
          simp only [jsizeFields] at hsz; omega
        have hbg : jsizeFields g gs ≤ f := by
          simp only [jsizeFields] at hsz; omega
        have hval : parseVal f
            (stringify v ++ ',' :: (stringifyFields g gs ++ '\x7d' :: rest)) =
            some (v, ',' :: (stringifyFields g gs ++ '\x7d' :: rest)) :=
          ihval v _ hbv (by intro d t h; cases h; decide)
        have hfl := ihfields g gs rest hbg
        have hps := parseStringBody_escStr k
          (':' :: (stringify v ++ ',' :: (stringifyFields g gs ++ '\x7d' :: rest)))
        have hs : stringifyFields (k, v) (g :: gs) ++ '\x7d' :: rest =
            '"' :: (escStr k ++ '"' ::
              (':' :: (stringify v ++ ',' :: (stringifyFields g gs ++ '\x7d' :: rest)))) := by
          simp [stringifyFields]
        rw [hs]
        simp [parseFields, hps, hval, hfl]

/-!
The document length bounds the fuel the parser needs.
-/

theorem jsize_le_length :
    ∀ N : Nat,
      (∀ v : Json, sizeOf v ≤ N → jsize v ≤ (stringify v).length) ∧
      (∀ (x : Json) (xs : List Json), sizeOf x + sizeOf xs ≤ N →
        jsizeItems x xs ≤ (stringifyItems x xs).length + 1) ∧
      (∀ (kv : List Char × Json) (fs : List (List Char × Json)), sizeOf kv + sizeOf fs ≤ N →
        jsizeFields kv fs ≤ (stringifyFields kv fs).length + 1) := by
  intro N
  induction N with
  | zero =>
    refine ⟨?_, ?_, ?_⟩
    · intro v h
      exact absurd h (by cases v <;> simp)
    · intro x xs h
      exact absurd h (by cases x <;> simp)
    · intro kv fs h
      exact absurd h (by obtain ⟨k, v⟩ := kv; cases v <;> simp)
  | succ N ih =>
    obtain ⟨ihv, ihi, ihf⟩ := ih
    have hvpos : ∀ v : Json, 1 ≤ sizeOf v := by
      intro v; cases v <;> simp
    have hlpos : ∀ xs : List Json, 1 ≤ sizeOf xs := by
      intro xs; cases xs <;> simp <;> omega
    have hfpos : ∀ fs : List (List Char × Json), 1 ≤ sizeOf fs := by
      intro fs; cases fs <;> simp <;> omega
    refine ⟨?_, ?_, ?_⟩
    · intro v hsz
      cases v with
      | null => simp [jsize, stringify]
      | bool b => cases b <;> simp [jsize, stringify]
      | num i =>
        cases i with
        | ofNat m =>
          have hlen : 0 < (natDigits m).length := List.length_pos.mpr (natDigits_ne_nil m)
          simp [jsize, stringify, intRepr]
          omega
        | negSucc m => simp [jsize, stringify, intRepr]
      | str s => simp [jsize, stringify]
      | arr xs =>
        cases xs with
        | nil => simp [jsize, stringify]
        | cons x xs =>
          have hb : sizeOf x + sizeOf xs ≤ N := by
            simp at hsz; omega
          have := ihi x xs hb
          simp [jsize, stringify]
          omega
      | obj fs =>
        cases fs with
        | nil => simp [jsize, stringify]
        | cons g gs =>
          have hb : sizeOf g + sizeOf gs ≤ N := by
            simp at hsz; omega
          have := ihf g gs hb
          simp [jsize, stringify]
          omega
    · intro x xs hsz
      cases xs with
      | nil =>
        have hb : sizeOf x ≤ N := by
          simp at hsz; omega
        have := ihv x hb
        simp [jsizeItems, stringifyItems]
        omega
      | cons y ys =>
        have hbx : sizeOf x ≤ N := by
          have := hvpos y
          have := hlpos ys
          simp at hsz; omega
        have hby : sizeOf y + sizeOf ys ≤ N := by
          have := hvpos x
          simp at hsz; omega
        have h1 := ihv x hbx
        have h2 := ihi y ys hby
        simp [jsizeItems, stringifyItems]
        omega
    · intro kv fs hsz
      obtain ⟨k, v⟩ := kv
      cases fs with
      | nil =>
        have hb : sizeOf v ≤ N := by
          simp at hsz; omega
        have := ihv v hb
        simp [jsizeFields, stringifyFields]
        omega
      | cons g gs =>
        have hbv : sizeOf v ≤ N := by
          have := hfpos gs
          have : 1 ≤ sizeOf g := by
            obtain ⟨gk, gv⟩ := g
            simp
            omega
          simp at hsz; omega
        have hbg : sizeOf g + sizeOf gs ≤ N := by
          simp at hsz; omega
        have h1 := ihv v hbv
        have h2 := ihf g gs hbg
        simp [jsizeFields, stringifyFields]
        omega

theorem jsize_le_fuel (v : Json) : jsize v ≤ (stringify v).length + 1 :=
  le_trans ((jsize_le_length (sizeOf v)).1 v le_rfl) (Nat.le_succ _)

/-- C6: rendering with `format=json` and `pretty=false` serializes the value
losslessly — parsing the output returns a value structurally equal to the
input, for every record or collection of records (numbers modelled as
integers). -/
theorem json_round_trip (v : Json) :
    outputJson v (some false) = [.text (stringify v)] ∧
      parseJson (stringify v) = some v := by
  constructor
  · simp [outputJson]
  · have h := (parse_stringify ((stringify v).length + 1)).1 v [] (jsize_le_fuel v)
      (by intro d t h; cases h)
    rw [List.append_nil] at h
    simp [parseJson, h]

/-!
Invariants of the pagination loop, by induction on the loop fuel.
-/

theorem getAllPagesAux_count_le {α ε : Type} (fetch : Nat → Except ε (Page α)) (maxPages : Nat) :
    ∀ (fuel page : Nat) (acc : List α),
      (getAllPagesAux fetch maxPages fuel page acc).2.1 ≤ maxPages + 1 - page := by
  intro fuel
  induction fuel with
  | zero => intro page acc; simp [getAllPagesAux]
  | succ fuel ih =>
    intro page acc
    by_cases hp : page ≤ maxPages
    · simp only [getAllPagesAux, hp, if_true]
      cases hfe : fetch page with
      | error e => simp; omega
      | ok data =>
        by_cases hnx : data.nextHref.isSome
        · have := ih (page + 1) (acc ++ data.results)
          simp [hnx]
          omega
        · simp [hnx]
          omega
    · simp [getAllPagesAux, hp]

theorem getAllPagesAux_trace_fetch {α ε : Type} (fetch : Nat → Except ε (Page α))
    (maxPages : Nat) :
    ∀ (fuel page : Nat) (acc : List α) (i : Nat) (pg : Page α),
      (getAllPagesAux fetch maxPages fuel page acc).2.2.get? i = some pg →
      fetch (page + i) = .ok pg := by
  intro fuel
  induction fuel with
  | zero => intro page acc i pg hi; simp [getAllPagesAux] at hi
  | succ fuel ih =>
    intro page acc i pg hi
    by_cases hp : page ≤ maxPages
    · simp only [getAllPagesAux, hp, if_true] at hi
      cases hfe : fetch page with
      | error e => rw [hfe] at hi; simp at hi
      | ok data =>
        rw [hfe] at hi
        by_cases hnx : data.nextHref.isSome
        · simp only [hnx, if_true] at hi
          cases i with
          | zero =>
            simp at hi
            rw [← hi]
            simpa using hfe
          | succ j =>
            have hj := ih (page + 1) (acc ++ data.results) j pg (by simpa using hi)
            rw [show page + (j + 1) = page + 1 + j by omega]
            exact hj
        · simp only [hnx, if_false] at hi
          cases i with
          | zero =>
            simp at hi
            rw [← hi]
            simpa using hfe
          | succ j => simp at hi
    · simp [getAllPagesAux, hp] at hi

theorem getAllPagesAux_ok_concat {α ε : Type} (fetch : Nat → Except ε (Page α))
    (maxPages : Nat) :
    ∀ (fuel page : Nat) (acc : List α) (l : List α),
      (getAllPagesAux fetch maxPages fuel page acc).1 = .ok l →
      l = acc ++
        ((getAllPagesAux fetch maxPages fuel page acc).2.2.map Page.results).flatten := by
  intro fuel
  induction fuel with
  | zero =>
    intro page acc l hl
    simp [getAllPagesAux] at hl ⊢
    exact hl.symm
  | succ fuel ih =>
    intro page acc l hl
    by_cases hp : page ≤ maxPages
    · simp only [getAllPagesAux, hp, if_true] at hl ⊢
      cases hfe : fetch page with
      | error e => rw [hfe] at hl; simp at hl
      | ok data =>
        rw [hfe] at hl
        by_cases hnx : data.nextHref.isSome
        · simp only [hnx, if_true] at hl ⊢
          have := ih (page + 1) (acc ++ data.results) l hl
          simpa [List.append_assoc] using this
        · simp only [hnx, if_false] at hl ⊢
          simp at hl
          simp [hl.symm]
    · simp [getAllPagesAux, hp] at hl ⊢
      exact hl.symm

theorem getAllPagesAux_ok_count {α ε : Type} (fetch : Nat → Except ε (Page α))
    (maxPages : Nat) :
    ∀ (fuel page : Nat) (acc : List α) (l : List α),
      (getAllPagesAux fetch maxPages fuel page acc).1 = .ok l →
      (getAllPagesAux fetch maxPages fuel page acc).2.1 =
        (getAllPagesAux fetch maxPages fuel page acc).2.2.length := by
  intro fuel
  induction fuel with
  | zero => intro page acc l _; simp [getAllPagesAux]
  | succ fuel ih =>
    intro page acc l hl
    by_cases hp : page ≤ maxPages
    · simp only [getAllPagesAux, hp, if_true] at hl ⊢
      cases hfe : fetch page with
      | error e => rw [hfe] at hl; simp at hl
      | ok data =>
        rw [hfe] at hl
        by_cases hnx : data.nextHref.isSome
        · simp only [hnx, if_true] at hl ⊢
          have := ih (page + 1) (acc ++ data.results) l hl
          simpa using this
        · simp [hnx]
    · simp [getAllPagesAux, hp]

theorem getAllPagesAux_mid_marker {α ε : Type} (fetch : Nat → Except ε (Page α))
    (maxPages : Nat) :
    ∀ (fuel page : Nat) (acc : List α) (i : Nat) (pg pg2 : Page α),
      (getAllPagesAux fetch maxPages fuel page acc).2.2.get? i = some pg →
      (getAllPagesAux fetch maxPages fuel page acc).2.2.get? (i + 1) = some pg2 →
      pg.nextHref.isSome = true := by
  intro fuel
  induction fuel with
  | zero => intro page acc i pg pg2 hi _; simp [getAllPagesAux] at hi
  | succ fuel ih =>
    intro page acc i pg pg2 hi hi2
    by_cases hp : page ≤ maxPages
    · simp only [getAllPagesAux, hp, if_true] at hi hi2
      cases hfe : fetch page with
      | error e => rw [hfe] at hi; simp at hi
      | ok data =>
        rw [hfe] at hi hi2
        by_cases hnx : data.nextHref.isSome
        · simp only [hnx, if_true] at hi hi2
          cases i with
          | zero =>
            simp at hi
            rw [← hi]
            exact hnx
          | succ j =>
            exact ih (page + 1) (acc ++ data.results) j pg pg2
              (by simpa using hi) (by simpa using hi2)
        · simp only [hnx, if_false] at hi hi2
          simp at hi2
    · simp [getAllPagesAux, hp] at hi

theorem getAllPagesAux_trace_ne_nil {α ε : Type} (fetch : Nat → Except ε (Page α))
    (maxPages : Nat) (fuel page : Nat) (acc : List α) (l : List α)
    (hfuel : 1 ≤ fuel) (hp : page ≤ maxPages)
    (hl : (getAllPagesAux fetch maxPages fuel page acc).1 = .ok l) :
    (getAllPagesAux fetch maxPages fuel page acc).2.2 ≠ [] := by
  match fuel, hfuel with
  | f + 1, _ =>
    simp only [getAllPagesAux, hp, if_true] at hl ⊢
    cases hfe : fetch page with
    | error e => rw [hfe] at hl; simp at hl
    | ok data =>
      rw [hfe] at hl
      by_cases hnx : data.nextHref.isSome
      · simp [hnx]
      · simp [hnx]

theorem getAllPagesAux_last_marker {α ε : Type} (fetch : Nat → Except ε (Page α))
    (maxPages : Nat) :
    ∀ (fuel page : Nat) (acc : List α) (l : List α) (pg : Page α),
      maxPages + 2 ≤ fuel + page →
      (getAllPagesAux fetch maxPages fuel page acc).1 = .ok l →
      (getAllPagesAux fetch maxPages fuel page acc).2.1 < maxPages + 1 - page →
      (getAllPagesAux fetch maxPages fuel page acc).2.2.getLast? = some pg →
      pg.nextHref = none := by
  intro fuel
  induction fuel with
  | zero => intro page acc l pg _ _ _ hlast; simp [getAllPagesAux] at hlast
  | succ fuel ih =>
    intro page acc l pg hfad hl hcnt hlast
    by_cases hp : page ≤ maxPages
    · simp only [getAllPagesAux, hp, if_true] at hl hcnt hlast
      cases hfe : fetch page with
      | error e => rw [hfe] at hl; simp at hl
      | ok data =>
        rw [hfe] at hl hcnt hlast
        by_cases hnx : data.nextHref.isSome
        · simp only [hnx, if_true] at hl hcnt hlast
          have hne : (getAllPagesAux fetch maxPages fuel (page + 1)
              (acc ++ data.results)).2.2 ≠ [] := by
            apply getAllPagesAux_trace_ne_nil fetch maxPages fuel (page + 1) _ l
            · omega
            · by_contra hgt
              have hle := getAllPagesAux_count_le fetch maxPages fuel (page + 1)
                (acc ++ data.results)
              omega
            · simpa using hl
          obtain ⟨q, qs, hqs⟩ := List.exists_cons_of_ne_nil hne
          rw [hqs] at hlast
          simp only [List.getLast?_cons_cons] at hlast
          exact ih (page + 1) (acc ++ data.results) l pg (by omega) (by simpa using hl)
            (by omega) (by rw [hqs]; exact hlast)
        · simp only [hnx, if_false] at hl hcnt hlast
          simp at hlast
          rw [← hlast]
          simpa [Option.not_isSome_iff_eq_none] using hnx
    · simp [getAllPagesAux, hp] at hlast

theorem getLast?_of_get? {β : Type} :
    ∀ (l : List β) (i : Nat) (pg : β), l.get? i = some pg → i + 1 = l.length →
      l.getLast? = some pg := by
  intro l
  induction l with
  | nil => intro i pg hi _; simp at hi
  | cons a l ih =>
    intro i pg hi hlen
    cases l with
    | nil =>
      have h0 : i = 0 := by simp at hlen; omega
      subst h0
      simp at hi
      simp [hi]
    | cons b t =>
      cases i with
      | zero => simp at hlen
      | succ j =>
        rw [List.getLast?_cons_cons]
        exact ih j pg (by simpa using hi) (by simp at hlen ⊢; omega)

theorem getAllPagesAux_error_at {α ε : Type} (fetch : Nat → Except ε (Page α))
    (maxPages k : Nat) (e : ε) :
    ∀ (fuel page : Nat) (acc : List α),
      maxPages + 2 ≤ fuel + page →
      page ≤ k → k ≤ maxPages →
      (∀ p, page ≤ p → p < k → ∃ pg, fetch p = .ok pg ∧ pg.nextHref.isSome = true) →
      fetch k = .error e →
      (getAllPagesAux fetch maxPages fuel page acc).1 = .error e ∧
        (getAllPagesAux fetch maxPages fuel page acc).2.1 = k - page + 1 := by
  intro fuel
  induction fuel with
  | zero =>
    intro page acc hfad hpk hkM _ _
    exact absurd hfad (by omega)
  | succ fuel ih =>
    intro page acc hfad hpk hkM hall hke
    have hp : page ≤ maxPages := le_trans hpk hkM
    by_cases heq : page = k
    · subst heq
      simp [getAllPagesAux, hp, hke]
    · have hlt : page < k := lt_of_le_of_ne hpk heq
      obtain ⟨pg, hfp, hnx⟩ := hall page le_rfl hlt
      have hrec := ih (page + 1) (acc ++ pg.results) (by omega) (by omega) hkM
        (fun p h1 h2 => hall p (by omega) h2) hke
      simp only [getAllPagesAux, hp, if_true, hfp, hnx, if_true]
      refine ⟨hrec.1, ?_⟩
      rw [hrec.2]
      omega

/-!
Claims about pagination.
-/

/-- C1: for every provider and bound `N`, `getAllPages` with `maxPages = N`
performs at most `N` page-fetch read calls (the model is a total function, so
the traversal always terminates), and the default bound is 10; this holds even
if the provider keeps returning a continuation marker on every page. -/
theorem getAllPages_call_bound {α ε : Type} (fetch : Nat → Except ε (Page α)) (N : Nat) :
    getAllPagesCallCount fetch N ≤ N ∧ defaultMaxPages = 10 := by
  refine ⟨?_, rfl⟩
  have h := getAllPagesAux_count_le fetch N (N + 1) 1 []
  have heq : getAllPagesCallCount fetch N =
      (getAllPagesAux fetch N (N + 1) 1 []).2.1 := rfl
  omega

/-- C3: if every page before page `k` succeeds with a continuation marker and
the fetch of page `k` fails, the traversal stops at page `k` (exactly `k` read
calls, so no further page is fetched), reports that error to the caller, and
returns none of the records accumulated from the earlier successful pages. -/
theorem getAllPages_error_fail_fast {α ε : Type} (fetch : Nat → Except ε (Page α))
    (N k : Nat) (e : ε)
    (hk1 : 1 ≤ k) (hkN : k ≤ N)
    (hok : ∀ p, 1 ≤ p → p < k → ∃ pg, fetch p = .ok pg ∧ pg.nextHref.isSome = true)
    (herr : fetch k = .error e) :
    getAllPages fetch N = .error e ∧ getAllPagesCallCount fetch N = k := by
  have h := getAllPagesAux_error_at fetch N k e (N + 1) 1 [] (by omega) hk1 hkN hok herr
  refine ⟨h.1, ?_⟩
  have heq : getAllPagesCallCount fetch N = (getAllPagesAux fetch N (N + 1) 1 []).2.1 := rfl
  omega

theorem getAllPages_error_fail_fast_witness :
    (1 : Nat) ≤ 2 ∧ (2 : Nat) ≤ 10 ∧ failPageFetch 2 = .error 99 ∧
      (getAllPages failPageFetch 10 = .error 99 ∧
        getAllPagesCallCount failPageFetch 10 = 2) := by
  refine ⟨by decide, by decide, rfl, ?_⟩
  apply getAllPages_error_fail_fast failPageFetch 10 2 99 (by decide) (by decide)
  · intro p h1 h2
    have hp1 : p = 1 := by omega
    subst hp1
    exact ⟨⟨[7, 8], some ['h']⟩, rfl, rfl⟩
  · rfl

/-- C4 counterexample: an empty page whose response still carries a
continuation marker does not stop the traversal — a second read call is
performed and its records are returned, so the stopping condition has no
"returned page is empty" disjunct. -/
theorem getAllPages_empty_page_continues :
    getAllPagesCallCount emptyPageFetch 10 = 2 ∧
      getAllPagesCallCount emptyPageFetch 10 ≠ 1 ∧
      getAllPages emptyPageFetch 10 = .ok [42] :=
  ⟨rfl, by decide, rfl⟩

/-- C4 (amended): the traversal stops fetching exactly when the page\'s
continuation marker is absent/null OR the `maxPages` bound is reached (an
empty page with a marker does not stop it): every fetched page with a
successor in the trace had a marker, and a fetched page with a marker is
followed by another fetch unless the bound is reached; a run over 3 pages of
2 records each where page 4 returns zero records and no continuation marker
returns exactly 6 records in 4 read calls. -/
theorem getAllPages_stop_condition {α ε : Type} (fetch : Nat → Except ε (Page α))
    (N : Nat) (l : List α) (h : getAllPages fetch N = .ok l) :
    getAllPagesCallCount fetch N = (getAllPagesFetched fetch N).length ∧
    getAllPagesCallCount fetch N ≤ N ∧
    (∀ i pg pg2, (getAllPagesFetched fetch N).get? i = some pg →
      (getAllPagesFetched fetch N).get? (i + 1) = some pg2 →
      pg.nextHref.isSome = true) ∧
    (∀ i pg, (getAllPagesFetched fetch N).get? i = some pg →
      pg.nextHref.isSome = true → i + 1 < N →
      i + 1 < (getAllPagesFetched fetch N).length) ∧
    (getAllPages scenarioFetch 10 = .ok [1, 2, 3, 4, 5, 6] ∧
      getAllPagesCallCount scenarioFetch 10 = 4) := by
  have hcount : getAllPagesCallCount fetch N =
      (getAllPagesFetched fetch N).length :=
    getAllPagesAux_ok_count fetch N (N + 1) 1 [] l h
  refine ⟨hcount, (getAllPages_call_bound fetch N).1, ?_, ?_, rfl, rfl⟩
  · intro i pg pg2 hi hi2
    exact getAllPagesAux_mid_marker fetch N (N + 1) 1 [] i pg pg2 hi hi2
  · intro i pg hi hsome hiN
    by_contra hge
    have hilt : i < (getAllPagesFetched fetch N).length := by
      have := List.get?_eq_some.mp hi
      exact this.1
    have hieq : i + 1 = (getAllPagesFetched fetch N).length := by omega
    have hlast : (getAllPagesFetched fetch N).getLast? = some pg :=
      getLast?_of_get? _ i pg hi hieq
    have hnone := getAllPagesAux_last_marker fetch N (N + 1) 1 [] l pg (by omega) h
      (by
        have hlt : getAllPagesCallCount fetch N < N := by omega
        have heq : getAllPagesCallCount fetch N =
            (getAllPagesAux fetch N (N + 1) 1 []).2.1 := rfl
        omega)
      hlast
    rw [hnone] at hsome
    simp at hsome

theorem getAllPages_stop_condition_witness :
    getAllPages scenarioFetch 10 = .ok [1, 2, 3, 4, 5, 6] ∧
      getAllPagesCallCount scenarioFetch 10 ≤ 10 :=
  ⟨rfl, (getAllPages_stop_condition scenarioFetch 10 [1, 2, 3, 4, 5, 6] rfl).2.1⟩

/-- C5: a successful traversal returns exactly the concatenation of the
fetched pages\' record lists, in fetch order (within-page order preserved);
entry `i` of the trace is what the provider returned for page number `1 + i`,
so all records of an earlier page precede all records of a later page. -/
theorem getAllPages_concat_in_order {α ε : Type} (fetch : Nat → Except ε (Page α))
    (N : Nat) (l : List α) (h : getAllPages fetch N = .ok l) :
    l = ((getAllPagesFetched fetch N).map Page.results).flatten ∧
    ∀ i pg, (getAllPagesFetched fetch N).get? i = some pg →
      fetch (1 + i) = .ok pg := by
  constructor
  · have := getAllPagesAux_ok_concat fetch N (N + 1) 1 [] l h
    simpa using this
  · intro i pg hi
    exact getAllPagesAux_trace_fetch fetch N (N + 1) 1 [] i pg hi

theorem getAllPages_concat_in_order_witness :
    getAllPages twoPageFetch 10 = .ok [10, 20, 30] ∧
      [10, 20, 30] = ((getAllPagesFetched twoPageFetch 10).map Page.results).flatten :=
  ⟨rfl, (getAllPages_concat_in_order twoPageFetch 10 [10, 20, 30] rfl).1⟩

/-!
Lemmas about the query builder.
-/

theorem intercalate_single {β : Type} (sep x : List β) : List.intercalate sep [x] = x := by
  simp [List.intercalate]

theorem intercalate_pair {β : Type} (sep x y : List β) (zs : List (List β)) :
    List.intercalate sep (x :: y :: zs) = x ++ sep ++ List.intercalate sep (y :: zs) := by
  simp [List.intercalate, List.intersperse_cons_cons]

theorem mem_intercalate_cons {β : Type} (sep x : List β) (xs : List (List β)) (c : β)
    (h : c ∈ List.intercalate sep (x :: xs)) :
    c ∈ x ∨ c ∈ sep ∨ c ∈ List.intercalate sep xs := by
  cases xs with
  | nil =>
    rw [intercalate_single] at h
    exact Or.inl h
  | cons y ys =>
    rw [intercalate_pair] at h
    rcases List.mem_append.mp h with h | h
    · rcases List.mem_append.mp h with h | h
      · exact Or.inl h
      · exact Or.inr (Or.inl h)
    · exact Or.inr (Or.inr h)

theorem intercalate_cons_head {β : Type} (sep : List β) (x : List β) (xs : List (List β))
    (hx : x ≠ []) :
    ∃ d t, List.intercalate sep (x :: xs) = d :: t ∧ d ∈ x := by
  obtain ⟨d, x', rfl⟩ := List.exists_cons_of_ne_nil hx
  cases xs with
  | nil =>
    rw [intercalate_single]
    exact ⟨d, x', rfl, List.mem_cons_self d x'⟩
  | cons y ys =>
    rw [intercalate_pair]
    exact ⟨d, x' ++ sep ++ List.intercalate sep (y :: ys), by simp,
      List.mem_cons_self d x'⟩

theorem ampAmpCount_zero : ∀ (l : List Char), (∀ c ∈ l, c ≠ '&') → ampAmpCount l = 0 := by
  intro l
  induction l with
  | nil => intro _; rfl
  | cons a l ih =>
    intro h
    have ha : a ≠ '&' := h a (List.mem_cons_self a l)
    simp [ampAmpCount, ha, ih (fun c hc => h c (List.mem_cons_of_mem a hc))]

theorem ampAmpCount_sep :
    ∀ (c t : List Char), (∀ x ∈ c, x ≠ '&') →
      (t = [] ∨ ∃ d t', t = d :: t' ∧ d ≠ '&') →
      ampAmpCount (c ++ '&' :: '&' :: t) = 1 + ampAmpCount t := by
  intro c
  induction c with
  | nil =>
    intro t _ ht
    rcases ht with rfl | ⟨d, t', rfl, hd⟩
    · simp [ampAmpCount]
    · simp [ampAmpCount, hd]
  | cons a c ih =>
    intro t ha ht
    have ha1 : a ≠ '&' := ha a (List.mem_cons_self a c)
    have hih := ih t (fun x hx => ha x (List.mem_cons_of_mem a hx)) ht
    rw [List.cons_append, ampAmpCount, hih]
    simp [ha1]

theorem ampAmpCount_intercalate :
    ∀ (conds : List (List Char)), conds ≠ [] →
      (∀ cond ∈ conds, cond ≠ [] ∧ ∀ x ∈ cond, x ≠ '&') →
      ampAmpCount (List.intercalate ['&', '&'] conds) = conds.length - 1 := by
  intro conds
  induction conds with
  | nil => intro h _; exact absurd rfl h
  | cons c cs ih =>
    intro _ hall
    cases cs with
    | nil =>
      rw [intercalate_single]
      exact ampAmpCount_zero c (hall c (List.mem_cons_self c [])).2
    | cons c2 cs2 =>
      rw [intercalate_pair]
      have hc := hall c (List.mem_cons_self c (c2 :: cs2))
      have hc2 := hall c2 (by simp)
      obtain ⟨d, t', hdt, hdmem⟩ :=
        intercalate_cons_head ['&', '&'] c2 cs2 hc2.1
      have hshape : c ++ ['&', '&'] ++ List.intercalate ['&', '&'] (c2 :: cs2) =
          c ++ '&' :: '&' :: List.intercalate ['&', '&'] (c2 :: cs2) := by
        simp
      rw [hshape, ampAmpCount_sep c _ hc.2 (Or.inr ⟨d, t', hdt, hc2.2 d hdmem⟩)]
      rw [ih (by simp) (fun cond hcond => hall cond (List.mem_cons_of_mem c hcond))]
      simp
      omega

theorem filterMap_renderFilter_length :
    ∀ (filters : List (List Char × FilterValue)),
      (∀ kv ∈ filters, kv.2 ≠ FilterValue.null) →
      (filters.filterMap renderFilter).length = filters.length := by
  intro filters
  induction filters with
  | nil => intro _; rfl
  | cons kv rest ih =>
    intro h
    obtain ⟨k, v⟩ := kv
    have hrest := fun kv hkv => h kv (List.mem_cons_of_mem _ hkv)
    cases v with
    | null => exact absurd rfl (h (k, FilterValue.null) (List.mem_cons_self _ _))
    | str s => simp [renderFilter, ih hrest]
    | num n => simp [renderFilter, ih hrest]

theorem renderFilter_cond_props (filters : List (List Char × FilterValue))
    (hkey : ∀ kv ∈ filters, '&' ∉ kv.1)
    (hstr : ∀ kv s, kv ∈ filters → kv.2 = FilterValue.str s → '&' ∉ s) :
    ∀ cond ∈ filters.filterMap renderFilter, cond ≠ [] ∧ ∀ x ∈ cond, x ≠ '&' := by
  intro cond hc
  rcases List.mem_filterMap.mp hc with ⟨kv, hkv, hrend⟩
  obtain ⟨k, v⟩ := kv
  cases v with
  | null => simp [renderFilter] at hrend
  | str s =>
    simp only [renderFilter, Option.some.injEq] at hrend
    constructor
    · rw [← hrend]; simp
    · intro x hx
      rw [← hrend] at hx
      rcases List.mem_append.mp hx with hx | hx
      · exact fun he => (hkey (k, FilterValue.str s) hkv) (he ▸ hx)
      · simp at hx
        rcases hx with rfl | rfl | hx | rfl
        · decide
        · decide
        · exact fun he => (hstr (k, FilterValue.str s) s hkv rfl) (he ▸ hx)
        · decide
  | num n =>
    simp only [renderFilter, Option.some.injEq] at hrend
    constructor
    · rw [← hrend]; simp
    · intro x hx
      rw [← hrend] at hx
      rcases List.mem_append.mp hx with hx | hx
      · exact fun he => (hkey (k, FilterValue.num n) hkv) (he ▸ hx)
      · simp only [List.mem_cons] at hx
        rcases hx with rfl | hx
        · decide
        · rcases intRepr_chars n x hx with rfl | hd
          · decide
          · intro he
            rw [he] at hd
            exact absurd hd (by decide)

/-!
Claims about the query builder.
-/

/-- C2 counterexample: the query builder takes a plain field→value map — there
is no operator parameter — and renders every criterion with `=`; on the
claim's input the output is `status="Open"&&totalAmount=500`, not the claimed
`status="Open"&&totalAmount>500`. -/
theorem buildQuery_operator_cex :
    buildQuery [("status".data, FilterValue.str "Open".data),
        ("totalAmount".data, FilterValue.num 500)] =
      "status=\"Open\"&&totalAmount=500".data ∧
    buildQuery [("status".data, FilterValue.str "Open".data),
        ("totalAmount".data, FilterValue.num 500)] ≠
      "status=\"Open\"&&totalAmount>500".data :=
  ⟨rfl, by decide⟩

/-- C2 (amended): `buildQuery` renders each non-null entry of its field→value
map as `field="literal"` for strings and `field=literal` for numbers — always
with `=` — joined by `&&`; in particular the claim's two-criterion input
yields `status="Open"&&totalAmount=500`.  No contains/greater-than/less-than
operator exists: every output character is `=`, `&`, `"`, a minus sign or
decimal digit (from a numeric literal), or a character of a caller-supplied
field name or string literal. -/
theorem buildQuery_equals_only :
    buildQuery [("status".data, FilterValue.str "Paid".data)] = "status=\"Paid\"".data ∧
    buildQuery [("status".data, FilterValue.str "Open".data),
        ("totalAmount".data, FilterValue.num 500)] =
      "status=\"Open\"&&totalAmount=500".data ∧
    ∀ (filters : List (List Char × FilterValue)) (c : Char), c ∈ buildQuery filters →
      (c = '=' ∨ c = '&' ∨ c = '"' ∨ c = '-' ∨ c.isDigit = true) ∨
        ∃ kv ∈ filters, c ∈ kv.1 ∨ ∃ s, kv.2 = FilterValue.str s ∧ c ∈ s := by
  refine ⟨rfl, rfl, ?_⟩
  intro filters
  induction filters with
  | nil => intro c hc; simp [buildQuery, List.intercalate] at hc
  | cons kv rest ih =>
    intro c hc
    obtain ⟨k, v⟩ := kv
    have weaken : ∀ c : Char,
        ((c = '=' ∨ c = '&' ∨ c = '"' ∨ c = '-' ∨ c.isDigit = true) ∨
          ∃ kv ∈ rest, c ∈ kv.1 ∨ ∃ s, kv.2 = FilterValue.str s ∧ c ∈ s) →
        (c = '=' ∨ c = '&' ∨ c = '"' ∨ c = '-' ∨ c.isDigit = true) ∨
          ∃ kv2 ∈ (k, v) :: rest, c ∈ kv2.1 ∨ ∃ s, kv2.2 = FilterValue.str s ∧ c ∈ s := by
      rintro d (hd | ⟨kv2, hkv2, hd⟩)
      · exact Or.inl hd
      · exact Or.inr ⟨kv2, List.mem_cons_of_mem _ hkv2, hd⟩
    cases v with
    | null =>
      have hq : buildQuery ((k, FilterValue.null) :: rest) = buildQuery rest := by
        simp [buildQuery, renderFilter]
      rw [hq] at hc
      exact weaken c (ih c hc)
    | str s =>
      have hq : buildQuery ((k, FilterValue.str s) :: rest) =
          List.intercalate ['&', '&']
            ((k ++ '=' :: '"' :: (s ++ ['"'])) :: rest.filterMap renderFilter) := by
        simp [buildQuery, renderFilter]
      rw [hq] at hc
      have hkv0 : (k, FilterValue.str s) ∈ (k, FilterValue.str s) :: rest :=
        List.mem_cons_self _ _
      rcases mem_intercalate_cons _ _ _ c hc with h | h | h
      · rcases List.mem_append.mp h with h | h
        · exact Or.inr ⟨(k, FilterValue.str s), hkv0, Or.inl h⟩
        · simp at h
          rcases h with rfl | rfl | h | rfl
          · exact Or.inl (by tauto)
          · exact Or.inl (by tauto)
          · exact Or.inr ⟨(k, FilterValue.str s), hkv0, Or.inr ⟨s, rfl, h⟩⟩
          · exact Or.inl (by tauto)
      · simp at h
        subst h
        exact Or.inl (by tauto)
      · exact weaken c (ih c h)
    | num n =>
      have hq : buildQuery ((k, FilterValue.num n) :: rest) =
          List.intercalate ['&', '&']
            ((k ++ '=' :: intRepr n) :: rest.filterMap renderFilter) := by
        simp [buildQuery, renderFilter]
      rw [hq] at hc
      have hkv0 : (k, FilterValue.num n) ∈ (k, FilterValue.num n) :: rest :=
        List.mem_cons_self _ _
      rcases mem_intercalate_cons _ _ _ c hc with h | h | h
      · rcases List.mem_append.mp h with h | h
        · exact Or.inr ⟨(k, FilterValue.num n), hkv0, Or.inl h⟩
        · simp only [List.mem_cons] at h
          rcases h with rfl | h
          · exact Or.inl (by tauto)
          · rcases intRepr_chars n c h with rfl | hd
            · exact Or.inl (by tauto)
            · exact Or.inl (by tauto)
      · simp at h
        subst h
        exact Or.inl (by tauto)
      · exact weaken c (ih c h)

/-- C7 counterexample: a string literal may itself contain `&&` — criterion
`(a, equals, "x&&y")` alone renders `a="x&&y"`, whose output contains one
occurrence of `&&`, not `n - 1 = 0`. -/
theorem buildQuery_sep_count_cex :
    ampAmpCount (buildQuery [("a".data, FilterValue.str "x&&y".data)]) = 1 ∧
      ([("a".data, FilterValue.str "x&&y".data)].length - 1 : Nat) = 0 ∧
      (1 : Nat) ≠ 0 :=
  ⟨rfl, rfl, by decide⟩

/-- C7 (amended): for every non-empty criteria map whose literals are
non-null and whose field names and string literals do not contain the
character `&`, the output contains exactly `n - 1` occurrences of `&&`, and
the criteria appear in input order (the concatenation of the field names, in
input order, is an order-preserving sublist of the output); the empty
criteria map yields the empty string. -/
theorem buildQuery_sep_count (filters : List (List Char × FilterValue))
    (hne : filters ≠ [])
    (hnull : ∀ kv ∈ filters, kv.2 ≠ FilterValue.null)
    (hkey : ∀ kv ∈ filters, '&' ∉ kv.1)
    (hstr : ∀ kv s, kv ∈ filters → kv.2 = FilterValue.str s → '&' ∉ s) :
    ampAmpCount (buildQuery filters) = filters.length - 1 ∧
      List.Sublist (filters.map Prod.fst).flatten (buildQuery filters) ∧
      buildQuery [] = [] := by
  refine ⟨?_, ?_, rfl⟩
  · have hlen := filterMap_renderFilter_length filters hnull
    have hprops := renderFilter_cond_props filters hkey hstr
    have hcne : filters.filterMap renderFilter ≠ [] := by
      intro h
      rw [h] at hlen
      simp at hlen
      exact hne (List.length_eq_zero.mp hlen.symm)
    have := ampAmpCount_intercalate (filters.filterMap renderFilter) hcne hprops
    rw [buildQuery, this, hlen]
  · clear hne
    induction filters with
    | nil => simp [buildQuery]
    | cons kv rest ih =>
      obtain ⟨k, v⟩ := kv
      have hnull' := fun kv hkv => hnull kv (List.mem_cons_of_mem _ hkv)
      have hkey' := fun kv hkv => hkey kv (List.mem_cons_of_mem _ hkv)
      have hstr' := fun kv s hkv he => hstr kv s (List.mem_cons_of_mem _ hkv) he
      have hsub := ih hnull' hkey' hstr'
      have hvne : v ≠ FilterValue.null :=
        hnull (k, v) (List.mem_cons_self _ _)
      obtain ⟨cond, hcond, hkpre⟩ :
          ∃ cond, renderFilter (k, v) = some cond ∧ List.Sublist k cond := by
        cases v with
        | null => exact absurd rfl hvne
        | str s =>
          exact ⟨_, rfl, List.sublist_append_left k _⟩
        | num n =>
          exact ⟨_, rfl, List.sublist_append_left k _⟩
      have hq : buildQuery ((k, v) :: rest) =
          List.intercalate ['&', '&'] (cond :: rest.filterMap renderFilter) := by
        simp [buildQuery, List.filterMap_cons, hcond]
      rw [hq]
      simp only [List.map_cons, List.flatten_cons]
      cases hrf : rest.filterMap renderFilter with
      | nil =>
        rw [intercalate_single]
        have hrest_nil : rest = [] := by
          cases hr : rest with
          | nil => rfl
          | cons r rs =>
            have hlen2 := filterMap_renderFilter_length rest hnull'
            rw [hrf, hr] at hlen2
            simp at hlen2
        subst hrest_nil
        simpa using hkpre
      | cons c2 cs2 =>
        rw [intercalate_pair]
        rw [List.append_assoc]
        refine List.Sublist.append hkpre ?_
        have h1 : (rest.map Prod.fst).flatten.Sublist
            (List.intercalate ['&', '&'] (c2 :: cs2)) := by
          rw [← hrf]
          exact hsub
        exact h1.trans (List.sublist_append_right ['&', '&'] _)

theorem buildQuery_sep_count_witness :
    ampAmpCount (buildQuery [("a".data, FilterValue.num 1),
        ("b".data, FilterValue.str "x".data)]) =
      ([("a".data, FilterValue.num 1), ("b".data, FilterValue.str "x".data)].length - 1) := by
  apply (buildQuery_sep_count _ (by simp) ?_ ?_ ?_).1
  · intro kv hkv
    simp only [List.mem_cons, List.mem_singleton] at hkv
    rcases hkv with rfl | rfl | h
    · simp
    · simp
    · simp at h
  · intro kv hkv
    simp only [List.mem_cons, List.mem_singleton] at hkv
    rcases hkv with rfl | rfl | h
    · decide
    · decide
    · simp at h
  · intro kv s hkv he
    simp only [List.mem_cons, List.mem_singleton] at hkv
    rcases hkv with rfl | rfl | h
    · simp at he
    · simp at he
      rw [← he]
      decide
    · simp at h

/-!
Claims about the output renderer and the error handler.
-/

/-- C8 counterexample: rendering the empty collection in compact format
produces no output at all — `outputCompact` has no empty-input notice. -/
theorem outputCompact_empty_cex :
    outputCompact (Json.arr []) none = [] ∧
      (([] : List OutLine) ≠ [.text "No results found".data]) :=
  ⟨rfl, by decide⟩

/-- C8 (amended): for the empty input collection, table format prints the
fixed "No results found" notice, json format faithfully emits the empty array
`[]` (whatever the pretty setting), and compact format prints nothing at
all — no notice. -/
theorem render_empty_collection :
    (∀ (cols : Option (List Column)) (title : Option (List Char)),
      outputTable (Json.arr []) cols title = [.text "No results found".data]) ∧
    (∀ fields, outputCompact (Json.arr []) fields = []) ∧
    (∀ p, outputJson (Json.arr []) p = [.text ['[', ']']]) := by
  refine ⟨?_, ?_, ?_⟩
  · intro cols title
    simp [outputTable, jsFalsy, asItems]
  · intro fields
    simp [outputCompact, asItems]
  · intro p
    cases p with
    | none => simp [outputJson, stringifyPretty, stringifyP]
    | some b =>
      cases b with
      | true => simp [outputJson, stringifyPretty, stringifyP]
      | false => simp [outputJson, stringify]

/-- C9 counterexample: a 401 response whose body carries a `details` field
prints the detail block after the fixed Unauthorized lines, so the
caller-visible message does include the BadRequest-style validation detail. -/
theorem handleApiError_401_details_cex :
    handleApiError (.response 401 (Json.obj [("details".data, Json.str "secret".data)])) =
      [.text "Unauthorized: Invalid API key or authentication failed".data,
       .text "Hint: Check your API key with codat auth status".data,
       .text ("Details: ".data ++ '"' :: escStr "secret".data ++ ['"'])] := by
  simp [handleApiError, statusLines, detailBlock, getField, lookupField, jsTruthy, jsFalsy,
    stringifyPretty, stringifyP]

/-- C9 (amended): every 401 response is reported with the two fixed
Unauthorized lines regardless of the body — never a BadRequest message — but
the trailing detail block is appended for every status, including 401, when
the body carries a truthy `details` or `validation` field; only with neither
field truthy is the output exactly the two fixed lines. -/
theorem handleApiError_401 (data : Json) :
    (handleApiError (.response 401 data)).take 2 =
      [.text "Unauthorized: Invalid API key or authentication failed".data,
       .text "Hint: Check your API key with codat auth status".data] ∧
    (jsTruthy (getField data "details".data) = false →
     jsTruthy (getField data "validation".data) = false →
     handleApiError (.response 401 data) =
       [.text "Unauthorized: Invalid API key or authentication failed".data,
        .text "Hint: Check your API key with codat auth status".data]) := by
  constructor
  · simp [handleApiError, statusLines]
  · intro h1 h2
    simp [handleApiError, statusLines, detailBlock, h1, h2]

theorem handleApiError_401_witness :
    jsTruthy (getField (Json.obj []) "details".data) = false ∧
    jsTruthy (getField (Json.obj []) "validation".data) = false ∧
    handleApiError (.response 401 (Json.obj [])) =
      [.text "Unauthorized: Invalid API key or authentication failed".data,
       .text "Hint: Check your API key with codat auth status".data] :=
  ⟨rfl, rfl, (handleApiError_401 (Json.obj [])).2 rfl rfl⟩

/-- C10 counterexample: the empty string is a format that is neither "json"
nor "compact", yet when the configured default format is "json" the
dispatcher renders json, not table. -/
theorem formatOutput_empty_format_cex :
    formatOutput (Json.arr []) (some []) "json".data none none none none =
      [.text ['[', ']']] ∧
    outputTable (Json.arr []) none none = [.text "No results found".data] ∧
    ([OutLine.text ['[', ']']] ≠ [OutLine.text "No results found".data]) := by
  refine ⟨?_, ?_, by decide⟩
  · simp [formatOutput, outputJson, stringifyPretty, stringifyP]
  · simp [outputTable, jsFalsy, asItems]

/-- C10 (amended): for every data value and options, a non-empty format
string other than "json" and "compact" (unrecognized or misspelled names
included) renders in table format, and the dispatcher is a total function —
it never raises an error; an absent or empty format string instead falls
back to the configured default format. -/
theorem formatOutput_default_table (data : Json) (fmt configFormat : List Char)
    (columns : Option (List Column)) (title : Option (List Char))
    (fields : Option (List (List Char))) (pretty : Option Bool)
    (h0 : fmt ≠ []) (hj : fmt ≠ "json".data) (hc : fmt ≠ "compact".data) :
    formatOutput data (some fmt) configFormat columns title fields pretty =
      outputTable data columns title := by
  have h0e : fmt.isEmpty = false := by
    cases fmt with
    | nil => exact absurd rfl h0
    | cons a l => rfl
  simp [formatOutput, h0e, hj, hc]

theorem formatOutput_default_table_witness :
    ("tabel".data ≠ ([] : List Char)) ∧ "tabel".data ≠ "json".data ∧
      "tabel".data ≠ "compact".data ∧
      formatOutput Json.null (some "tabel".data) "table".data none none none none =
        outputTable Json.null none none :=
  ⟨by decide, by decide, by decide,
    formatOutput_default_table Json.null "tabel".data "table".data none none none none
      (by decide) (by decide) (by decide)⟩

end Codat
